import Mathlib

/-!
Shallow embedding of the discretization and sparse-lookup-table subsystem of
the CartPole repository (file src/utils/datastructures.py).

Real scalars of the Python code are modelled by rationals, machine integers
by Int/Nat.  Fallible operations (a Python exception) return Option, with
none standing for the raised exception.  Python dicts are modelled by
insertion-ordered association lists, and numpy arrays by lists of rationals.
-/

namespace CartPole

/-- Bucketer holds a lower bound, an upper bound and a bucket count
(Bucketer.__init__ in datastructures.py). -/
structure Bucketer where
  lower_bound : ℚ
  upper_bound : ℚ
  n_buckets : ℕ
  deriving DecidableEq, Repr

namespace Bucketer

/-- Step size computed at the top of Bucketer.get_bucketed:
abs(lower_bound) / n_buckets + abs(upper_bound) / n_buckets. -/
def step_size (b : Bucketer) : ℚ :=
  |b.lower_bound| / (b.n_buckets : ℚ) + |b.upper_bound| / (b.n_buckets : ℚ)

/-- Loop condition of Bucketer.get_bucketed at loop index k:
lower_bound + k * step_size <= value < lower_bound + (k + 1) * step_size. -/
def inBucket (b : Bucketer) (value : ℚ) (k : ℕ) : Prop :=
  b.lower_bound + (k : ℚ) * b.step_size ≤ value ∧
    value < b.lower_bound + ((k : ℚ) + 1) * b.step_size

instance (b : Bucketer) (value : ℚ) (k : ℕ) : Decidable (b.inBucket value k) :=
  instDecidableAnd

/-- Bucketer.get_bucketed: iterate bucket indices 0 .. n_buckets - 1 and
return the first index whose half-open interval contains the value; when the
loop finds nothing, return n_buckets if the final loop counter
n_buckets - 1 equals upper_bound (a numeric comparison of the int counter
with the bound) and -1 otherwise.  When n_buckets = 0 the Python code
raises (division by zero in step_size, and the loop variable is unbound),
modelled as none. -/
def get_bucketed (b : Bucketer) (value : ℚ) : Option ℤ :=
  if b.n_buckets = 0 then none
  else
    match (List.range b.n_buckets).find? (fun k => decide (b.inBucket value k)) with
    | some k => some (k : ℤ)
    | none =>
        if ((b.n_buckets : ℚ) - 1) = b.upper_bound then some (b.n_buckets : ℤ)
        else some (-1)

end Bucketer

/-- MultiBucketer holds one Bucketer per coordinate, all sharing one bucket
count (MultiBucketer.__init__). -/
structure MultiBucketer where
  bucketers : List Bucketer
  n_buckets : ℕ
  deriving DecidableEq, Repr

namespace MultiBucketer

/-- Dimensionality n = len(lower_bounds), recorded by MultiBucketer.__init__. -/
def n (m : MultiBucketer) : ℕ := m.bucketers.length

/-- MultiBucketer.__init__: asserts the two bounds lists have equal length,
then builds one Bucketer per zipped (lower, upper) pair.  The failed assert
is modelled as none. -/
def make (lower_bounds upper_bounds : List ℚ) (n_buckets : ℕ) :
    Option MultiBucketer :=
  if lower_bounds.length = upper_bounds.length then
    some { bucketers :=
             (List.zip lower_bounds upper_bounds).map
               (fun p => { lower_bound := p.1, upper_bound := p.2,
                           n_buckets := n_buckets }),
           n_buckets := n_buckets }
  else none

/-- Sequencing of the per-element results of a Python list comprehension:
the first raised exception (none) aborts the whole comprehension. -/
def collectOpt : List (Option ℤ) → Option (List ℤ)
  | [] => some []
  | none :: _ => none
  | some z :: rest => (collectOpt rest).map (fun l => z :: l)

/-- MultiBucketer.get_bucketed: list comprehension over
zip(self.bucketers, values), applying each sub-bucketer to the paired
value.  zip truncates to the shorter of the two sequences. -/
def get_bucketed (m : MultiBucketer) (values : List ℚ) : Option (List ℤ) :=
  collectOpt (List.zipWith Bucketer.get_bucketed m.bucketers values)

end MultiBucketer

/-- Cell is a node of the nested table of an ObservationDict: either a
Python dict (an insertion-ordered association list from keys to sub-cells)
or a numpy value vector created by full(n_actions, init_value).  Keys are
rationals since Python compares an int key and a float key numerically. -/
inductive Cell where
  | node : List (ℚ × Cell) → Cell
  | leaf : List ℚ → Cell
  deriving Repr

namespace Cell

/-- Python dict lookup d[key] on an association list: the first entry with
the matching key; none models the KeyError. -/
def lookup : List (ℚ × Cell) → ℚ → Option Cell
  | [], _ => none
  | (k, c) :: rest, key => if k = key then some c else lookup rest key

/-- Python dict assignment d[key] = c for a key already present: the entry
keeps its insertion position. -/
def updateEntry : List (ℚ × Cell) → ℚ → Cell → List (ℚ × Cell)
  | [], _, _ => []
  | (k, c) :: rest, key, c' =>
      if k = key then (k, c') :: rest else (k, c) :: updateEntry rest key c'

/-- Loop body of ObservationDict.get: walk the keys one at a time,
descending into the dict entry for each key; on KeyError insert an empty
dict, or, at the last key, a fresh vector full(n_actions, init_value), and
descend into it.  Returns the cell reached together with the updated cell
walked from.  Indexing a non-dict cell (a numpy leaf reached with keys
still remaining) raises in Python and is modelled as none. -/
def getCell (initv : ℚ) (nA : ℕ) : List ℚ → Cell → Option (Cell × Cell)
  | [], c => some (c, c)
  | _ :: _, leaf _ => none
  | key :: rest, node entries =>
      match lookup entries key with
      | some c =>
          match getCell initv nA rest c with
          | some (res, c') => some (res, node (updateEntry entries key c'))
          | none => none
      | none =>
          let fresh : Cell :=
            if rest = [] then leaf (List.replicate nA initv) else node []
          match getCell initv nA rest fresh with
          | some (res, c') => some (res, node (entries ++ [(key, c')]))
          | none => none

/-- Pure read of the cell stored at a key path, with no insertion: the
nested-dict location that a Python reference returned by get points at. -/
def cellAt : List ℚ → Cell → Option Cell
  | [], c => some c
  | _ :: _, leaf _ => none
  | key :: rest, node entries =>
      match lookup entries key with
      | some c => cellAt rest c
      | none => none

/-- In-place element write v[a] = x performed by the caller through the
reference returned by get, expressed as an update of the table at the
key path of that reference.  A path that does not end at a stored leaf
leaves the table unchanged. -/
def write (a : ℕ) (x : ℚ) : List ℚ → Cell → Cell
  | [], leaf v => leaf (v.set a x)
  | key :: rest, node entries =>
      match lookup entries key with
      | some c => node (updateEntry entries key (write a x rest c))
      | none => node entries
  | _, c => c

/-- Top-level form of write on a dict: the updated entry list. -/
def writeEntries (a : ℕ) (x : ℚ) (ks : List ℚ) (entries : List (ℚ × Cell)) :
    List (ℚ × Cell) :=
  match ks with
  | [] => entries
  | key :: rest =>
      match lookup entries key with
      | some c => updateEntry entries key (write a x rest c)
      | none => entries

mutual

/-- Leaf-length invariant of a nested table: every stored numpy vector has
length n_actions. -/
def leavesOk (nA : ℕ) : Cell → Prop
  | leaf v => v.length = nA
  | node entries => entriesOk nA entries

/-- Leaf-length invariant over an entry list. -/
def entriesOk (nA : ℕ) : List (ℚ × Cell) → Prop
  | [] => True
  | (_, c) :: rest => leavesOk nA c ∧ entriesOk nA rest

end

/-- One key path inserted into an empty dict: the nested single-entry chain
that one get call builds, ending in a fresh full(n_actions, init_value)
vector. -/
def singlePath (initv : ℚ) (nA : ℕ) : List ℚ → List (ℚ × Cell)
  | [] => []
  | [k] => [(k, leaf (List.replicate nA initv))]
  | k :: rest => [(k, node (singlePath initv nA rest))]

/-- Shape of a table holding exactly one key path: one entry per nesting
level, one level per key, ending in the freshly initialised leaf. -/
def singleChain (initv : ℚ) (nA : ℕ) : List ℚ → Cell → Prop
  | [], c => c = leaf (List.replicate nA initv)
  | k :: rest, c => ∃ c2, c = node [(k, c2)] ∧ singleChain initv nA rest c2

end Cell

/-- ObservationDict holds the root dict, the leaf fill value, the action
count and the optional bucketer (ObservationDict.__init__; the root table
starts empty). -/
structure ObservationDict where
  table : List (ℚ × Cell)
  init_value : ℚ
  n_actions : ℕ
  bucketer : Option MultiBucketer

namespace ObservationDict

/-- Key sequence that ObservationDict.get iterates over: the observation
itself, or its bucketed image when a bucketer is configured (the int keys
a bucketer yields act as numeric dict keys). -/
def keysOf (d : ObservationDict) (observation : List ℚ) : Option (List ℚ) :=
  match d.bucketer with
  | some b => (b.get_bucketed observation).map (fun l => l.map (fun z => (z : ℚ)))
  | none => some observation

/-- ObservationDict.get: bucket the observation when a bucketer is set, then
walk/create the nested table one key at a time and return the cell reached
together with the updated dictionary. -/
def get (d : ObservationDict) (observation : List ℚ) :
    Option (Cell × ObservationDict) :=
  match d.keysOf observation with
  | none => none
  | some ks =>
      match Cell.getCell d.init_value d.n_actions ks (Cell.node d.table) with
      | some (res, Cell.node t) => some (res, { d with table := t })
      | some (_, Cell.leaf _) => none
      | none => none

/-- Caller-side in-place write v[a] = x through the reference returned by
get for the key path ks, seen at the level of the whole table. -/
def writeAt (d : ObservationDict) (ks : List ℚ) (a : ℕ) (x : ℚ) :
    ObservationDict :=
  { d with table := Cell.writeEntries a x ks d.table }

end ObservationDict

namespace Bucketer

/-- Step size is positive whenever the bounds are ordered and the bucket
count is positive: the two bounds cannot both be zero. -/
theorem step_size_pos (b : Bucketer) (hn : 0 < b.n_buckets)
    (hlt : b.lower_bound < b.upper_bound) : 0 < b.step_size := by
  have hnq : (0 : ℚ) < (b.n_buckets : ℚ) := by exact_mod_cast hn
  have habs : 0 < |b.lower_bound| + |b.upper_bound| := by
    rcases lt_trichotomy b.lower_bound 0 with h | h | h
    · have h1 : 0 < |b.lower_bound| := abs_pos.mpr (ne_of_lt h)
      have h2 := abs_nonneg b.upper_bound
      linarith
    · have hub : 0 < b.upper_bound := by rw [h] at hlt; exact hlt
      have h1 : 0 < |b.upper_bound| := abs_pos.mpr (ne_of_gt hub)
      have h2 := abs_nonneg b.lower_bound
      linarith
    · have h1 : 0 < |b.lower_bound| := abs_pos.mpr (ne_of_gt h)
      have h2 := abs_nonneg b.upper_bound
      linarith
  rw [step_size, div_add_div_same]
  exact div_pos habs hnq

/-- Upper bound of the input interval is covered by the n_buckets buckets:
lower_bound + n_buckets * step_size is at least upper_bound. -/
theorem upper_le_cover (b : Bucketer) (hn : 0 < b.n_buckets) :
    b.upper_bound ≤ b.lower_bound + (b.n_buckets : ℚ) * b.step_size := by
  have hnq : (b.n_buckets : ℚ) ≠ 0 := by
    exact_mod_cast hn.ne'
  have hcov : (b.n_buckets : ℚ) * b.step_size =
      |b.lower_bound| + |b.upper_bound| := by
    rw [step_size, div_add_div_same]
    field_simp
  rw [hcov]
  have h1 := le_abs_self b.upper_bound
  have h2 := neg_abs_le b.lower_bound
  linarith

/-- Loop condition holds at index k exactly when k is the floor of the
scaled offset (value - lower_bound) / step_size. -/
theorem inBucket_iff_floor (b : Bucketer) (v : ℚ) (k : ℕ)
    (hs : 0 < b.step_size) :
    b.inBucket v k ↔ ⌊(v - b.lower_bound) / b.step_size⌋ = (k : ℤ) := by
  rw [Int.floor_eq_iff, inBucket]
  push_cast
  rw [le_div_iff₀ hs, div_lt_iff₀ hs]
  have hexp : ((k : ℚ) + 1) * b.step_size = (k : ℚ) * b.step_size + b.step_size := by
    ring
  constructor
  · rintro ⟨h1, h2⟩
    constructor <;> [linarith; nlinarith]
  · rintro ⟨h1, h2⟩
    constructor <;> [linarith; nlinarith]

/-- Bucketer.get_bucketed returns the floor of the scaled offset for any
value at or above the lower bound and below the covered range, and that
floor lies in the index interval from 0 to n_buckets. -/
theorem get_bucketed_eq_floor (b : Bucketer) (v : ℚ) (hn : 0 < b.n_buckets)
    (hs : 0 < b.step_size) (hlo : b.lower_bound ≤ v)
    (hhi : v < b.lower_bound + (b.n_buckets : ℚ) * b.step_size) :
    b.get_bucketed v = some ⌊(v - b.lower_bound) / b.step_size⌋ ∧
      0 ≤ ⌊(v - b.lower_bound) / b.step_size⌋ ∧
      ⌊(v - b.lower_bound) / b.step_size⌋ < (b.n_buckets : ℤ) := by
  have hq0 : 0 ≤ (v - b.lower_bound) / b.step_size :=
    div_nonneg (by linarith) (le_of_lt hs)
  have hqn : (v - b.lower_bound) / b.step_size < (b.n_buckets : ℚ) := by
    rw [div_lt_iff₀ hs]; linarith
  have hf0 : 0 ≤ ⌊(v - b.lower_bound) / b.step_size⌋ := Int.floor_nonneg.mpr hq0
  have hfn : ⌊(v - b.lower_bound) / b.step_size⌋ < (b.n_buckets : ℤ) :=
    Int.floor_lt.mpr (by exact_mod_cast hqn)
  have hk0z : ((⌊(v - b.lower_bound) / b.step_size⌋.toNat : ℕ) : ℤ) =
      ⌊(v - b.lower_bound) / b.step_size⌋ := Int.toNat_of_nonneg hf0
  have hk0n : ⌊(v - b.lower_bound) / b.step_size⌋.toNat < b.n_buckets := by
    omega
  have hpk : b.inBucket v ⌊(v - b.lower_bound) / b.step_size⌋.toNat :=
    (inBucket_iff_floor b v _ hs).mpr hk0z.symm
  have hfind : (List.range b.n_buckets).find?
      (fun k => decide (b.inBucket v k)) =
      some ⌊(v - b.lower_bound) / b.step_size⌋.toNat := by
    cases h : (List.range b.n_buckets).find? (fun k => decide (b.inBucket v k)) with
    | none =>
        exfalso
        rw [List.find?_eq_none] at h
        exact h _ (List.mem_range.mpr hk0n) (by simpa using hpk)
    | some a =>
        have hpa : b.inBucket v a := by
          have h2 := List.find?_some h
          simpa using h2
        have ha : (a : ℤ) = ⌊(v - b.lower_bound) / b.step_size⌋ :=
          ((inBucket_iff_floor b v a hs).mp hpa).symm
        have : a = ⌊(v - b.lower_bound) / b.step_size⌋.toNat := by omega
        rw [this]
  refine ⟨?_, hf0, hfn⟩
  rw [get_bucketed, if_neg hn.ne', hfind]
  exact congrArg some hk0z

end Bucketer

/-- C1: for every Bucketer with lower_bound < upper_bound and
n_buckets > 0, get_bucketed(value) computes
step_size = abs(lower_bound)/n_buckets + abs(upper_bound)/n_buckets, and
either returns the first bucket index k below n_buckets whose half-open
interval contains the value, or, when no index matches, returns n_buckets
if the final loop counter n_buckets - 1 equals upper_bound and -1
otherwise. -/
theorem c1_get_bucketed_first_match (b : Bucketer) (v : ℚ)
    (hn : 0 < b.n_buckets) (hlt : b.lower_bound < b.upper_bound) :
    b.step_size = |b.lower_bound| / (b.n_buckets : ℚ) +
        |b.upper_bound| / (b.n_buckets : ℚ) ∧
      ((∃ k : ℕ, k < b.n_buckets ∧ b.inBucket v k ∧
          (∀ j : ℕ, j < k → ¬ b.inBucket v j) ∧
          b.get_bucketed v = some (k : ℤ)) ∨
        ((∀ k : ℕ, k < b.n_buckets → ¬ b.inBucket v k) ∧
          b.get_bucketed v =
            some (if ((b.n_buckets : ℚ) - 1) = b.upper_bound
                  then (b.n_buckets : ℤ) else -1))) := by
  have hs := Bucketer.step_size_pos b hn hlt
  refine ⟨rfl, ?_⟩
  cases h : (List.range b.n_buckets).find? (fun k => decide (b.inBucket v k)) with
  | some k =>
      left
      have hk : k < b.n_buckets :=
        List.mem_range.mp (List.mem_of_find?_eq_some h)
      have hpk : b.inBucket v k := by
        have h2 := List.find?_some h
        simpa using h2
      refine ⟨k, hk, hpk, ?_, ?_⟩
      · intro j hj hpj
        have h1 := (Bucketer.inBucket_iff_floor b v j hs).mp hpj
        have h2 := (Bucketer.inBucket_iff_floor b v k hs).mp hpk
        omega
      · rw [Bucketer.get_bucketed, if_neg hn.ne', h]
  | none =>
      right
      constructor
      · intro k hk hpk
        rw [List.find?_eq_none] at h
        exact h k (List.mem_range.mpr hk) (by simpa using hpk)
      · rw [Bucketer.get_bucketed, if_neg hn.ne', h]
        show (if ((b.n_buckets : ℚ) - 1) = b.upper_bound
              then some ((b.n_buckets : ℕ) : ℤ) else some (-1)) =
            some (if ((b.n_buckets : ℚ) - 1) = b.upper_bound
                  then ((b.n_buckets : ℕ) : ℤ) else -1)
        split_ifs <;> rfl

/-- Witness for C1 at the Bucketer with bounds 0 and 10 and 5 buckets,
applied to the value 2. -/
theorem c1_get_bucketed_first_match_witness :
    0 < (Bucketer.mk 0 10 5).n_buckets ∧
      (Bucketer.mk 0 10 5).lower_bound < (Bucketer.mk 0 10 5).upper_bound ∧
      ((Bucketer.mk 0 10 5).step_size =
          |(Bucketer.mk 0 10 5).lower_bound| / ((Bucketer.mk 0 10 5).n_buckets : ℚ) +
            |(Bucketer.mk 0 10 5).upper_bound| / ((Bucketer.mk 0 10 5).n_buckets : ℚ) ∧
        ((∃ k : ℕ, k < (Bucketer.mk 0 10 5).n_buckets ∧
            (Bucketer.mk 0 10 5).inBucket 2 k ∧
            (∀ j : ℕ, j < k → ¬ (Bucketer.mk 0 10 5).inBucket 2 j) ∧
            (Bucketer.mk 0 10 5).get_bucketed 2 = some (k : ℤ)) ∨
          ((∀ k : ℕ, k < (Bucketer.mk 0 10 5).n_buckets →
              ¬ (Bucketer.mk 0 10 5).inBucket 2 k) ∧
            (Bucketer.mk 0 10 5).get_bucketed 2 =
              some (if (((Bucketer.mk 0 10 5).n_buckets : ℚ) - 1) =
                        (Bucketer.mk 0 10 5).upper_bound
                    then ((Bucketer.mk 0 10 5).n_buckets : ℤ) else -1)))) :=
  ⟨by decide, by norm_num,
    c1_get_bucketed_first_match (Bucketer.mk 0 10 5) 2 (by decide) (by norm_num)⟩

/-- C2: for the Bucketer with lower_bound 0, upper_bound 10 and 5 buckets
(step size 2), bucketing 0 gives 0, bucketing 1.999 gives 0, bucketing 2.0
gives 1 and bucketing 9.999 gives 4. -/
theorem c2_boundary_law :
    (Bucketer.mk 0 10 5).step_size = 2 ∧
      (Bucketer.mk 0 10 5).get_bucketed 0 = some 0 ∧
      (Bucketer.mk 0 10 5).get_bucketed (1999/1000) = some 0 ∧
      (Bucketer.mk 0 10 5).get_bucketed 2 = some 1 ∧
      (Bucketer.mk 0 10 5).get_bucketed (9999/1000) = some 4 := by
  refine ⟨?_, ?_, ?_, ?_, ?_⟩ <;>
    norm_num [Bucketer.get_bucketed, Bucketer.inBucket, Bucketer.step_size,
      List.range_succ]

/-- Bucketer.get_bucketed always yields a value (never raises) when the
bucket count is positive: every branch after the loop returns. -/
theorem Bucketer.get_bucketed_isSome (b : Bucketer) (v : ℚ)
    (hn : 0 < b.n_buckets) : ∃ z : ℤ, b.get_bucketed v = some z := by
  rw [Bucketer.get_bucketed, if_neg hn.ne']
  cases (List.range b.n_buckets).find? (fun k => decide (b.inBucket v k)) with
  | some k => exact ⟨k, rfl⟩
  | none =>
      split_ifs with h
      · exact ⟨_, rfl⟩
      · exact ⟨_, rfl⟩

/-- collectOpt returns a list exactly when every element of the input is
present, and then the input is the image of the output under some. -/
theorem MultiBucketer.collectOpt_eq_some_iff (l : List (Option ℤ))
    (out : List ℤ) :
    MultiBucketer.collectOpt l = some out ↔ l = out.map some := by
  induction l generalizing out with
  | nil => cases out <;> simp [MultiBucketer.collectOpt]
  | cons x rest ih =>
      cases x with
      | none => cases out <;> simp [MultiBucketer.collectOpt]
      | some z =>
          cases out with
          | nil => simp [MultiBucketer.collectOpt]
          | cons w ws =>
              have hdef : MultiBucketer.collectOpt (some z :: rest) =
                  (MultiBucketer.collectOpt rest).map (fun l => z :: l) := rfl
              rw [hdef, Option.map_eq_some']
              constructor
              · rintro ⟨l0, hl0, heq⟩
                injection heq with h1 h2
                subst h1
                subst h2
                simp [(ih l0).mp hl0]
              · intro h
                simp only [List.map_cons] at h
                injection h with h1 h2
                injection h1 with h1
                exact ⟨ws, (ih ws).mpr h2, by rw [h1]⟩

/-- Bucketing a value list against a bucketer list whose bucket counts are
positive never raises and produces one output per zipped pair. -/
theorem MultiBucketer.collect_zip_length (bs : List Bucketer) (vs : List ℚ)
    (hpos : ∀ b ∈ bs, 0 < b.n_buckets) :
    ∃ out, MultiBucketer.collectOpt
        (List.zipWith Bucketer.get_bucketed bs vs) = some out ∧
      out.length = min bs.length vs.length := by
  induction bs generalizing vs with
  | nil => exact ⟨[], by simp [MultiBucketer.collectOpt], by simp⟩
  | cons b rest ih =>
      cases vs with
      | nil => exact ⟨[], by simp [MultiBucketer.collectOpt], by simp⟩
      | cons v vt =>
          obtain ⟨z, hz⟩ := Bucketer.get_bucketed_isSome b v (hpos b (by simp))
          obtain ⟨out, hout, hlen⟩ := ih vt (fun b2 hb2 => hpos b2 (by simp [hb2]))
          refine ⟨z :: out, ?_, ?_⟩
          · simp [List.zipWith, hz, MultiBucketer.collectOpt, hout]
          · simp only [List.length_cons, hlen]
            omega

/-- C3 counterexample: the MultiBucketer of dimensionality 2 with
per-coordinate bounds (0, 10) and (-5, 5) and 5 buckets, given the
one-element value vector [2], does not fail: it silently truncates and
returns the one-element output [1]. -/
theorem c3_counterexample :
    (MultiBucketer.mk [Bucketer.mk 0 10 5, Bucketer.mk (-5) 5 5] 5).n = 2 ∧
      (MultiBucketer.mk [Bucketer.mk 0 10 5, Bucketer.mk (-5) 5 5] 5).get_bucketed
        [2] = some [1] := by
  constructor
  · rfl
  · norm_num [MultiBucketer.get_bucketed, MultiBucketer.collectOpt,
      Bucketer.get_bucketed, Bucketer.inBucket, Bucketer.step_size,
      List.range_succ]

/-- C3 amended: a MultiBucketer whose sub-bucketers all have positive
bucket counts, given a value vector of any length, does not raise: it
returns an output list whose length is the shorter of the dimensionality
and the input length (zip truncation, never padding). -/
theorem c3_truncation (m : MultiBucketer) (values : List ℚ)
    (hpos : ∀ b ∈ m.bucketers, 0 < b.n_buckets) :
    ∃ out, m.get_bucketed values = some out ∧
      out.length = min m.n values.length := by
  rw [MultiBucketer.get_bucketed]
  exact MultiBucketer.collect_zip_length m.bucketers values hpos

/-- Witness for the amended C3 at the two-dimensional MultiBucketer with
bounds (0, 10) and (-5, 5), applied to the one-element vector [2]. -/
theorem c3_truncation_witness :
    (∀ b ∈ (MultiBucketer.mk [Bucketer.mk 0 10 5, Bucketer.mk (-5) 5 5] 5).bucketers,
        0 < b.n_buckets) ∧
      (∃ out, (MultiBucketer.mk [Bucketer.mk 0 10 5, Bucketer.mk (-5) 5 5] 5).get_bucketed
          [2] = some out ∧
        out.length =
          min (MultiBucketer.mk [Bucketer.mk 0 10 5, Bucketer.mk (-5) 5 5] 5).n
            [(2 : ℚ)].length) :=
  ⟨by decide,
    c3_truncation (MultiBucketer.mk [Bucketer.mk 0 10 5, Bucketer.mk (-5) 5 5] 5)
      [2] (by decide)⟩

/-- C9: for every MultiBucketer, a successfully bucketed vector of the
configured length yields an output of that length whose entry at each
coordinate i is the result of coordinate i's Bucketer on the input's
coordinate i; and concretely, the MultiBucketer with bounds (0, 10) and
(-5, 5) and 5 buckets maps [2, 0] to [1, 2], where 2 is the bucket of 0
under the Bucketer with bounds (-5, 5) and 5 buckets. -/
theorem c9_pointwise (mb : MultiBucketer) (values : List ℚ)
    (hlen : values.length = mb.n) :
    (∀ out, mb.get_bucketed values = some out →
      out.length = mb.n ∧
      ∀ i, i < mb.n →
        ∃ bi vi ri, mb.bucketers[i]? = some bi ∧ values[i]? = some vi ∧
          out[i]? = some ri ∧ bi.get_bucketed vi = some ri) ∧
    ((MultiBucketer.mk [Bucketer.mk 0 10 5, Bucketer.mk (-5) 5 5] 5).get_bucketed
        [2, 0] = some [1, 2] ∧
      (Bucketer.mk (-5) 5 5).get_bucketed 0 = some 2) := by
  constructor
  · intro out hout
    rw [MultiBucketer.get_bucketed] at hout
    have hzip := (MultiBucketer.collectOpt_eq_some_iff _ _).mp hout
    rw [MultiBucketer.n] at hlen
    have hlz : out.length = mb.bucketers.length := by
      have hc := congrArg List.length hzip
      simp only [List.length_zipWith, List.length_map, hlen] at hc
      omega
    refine ⟨hlz, ?_⟩
    intro i hi
    rw [MultiBucketer.n] at hi
    have hib : i < mb.bucketers.length := hi
    have hiv : i < values.length := by omega
    have hio : i < out.length := by omega
    refine ⟨mb.bucketers[i], values[i], out[i],
      List.getElem?_eq_getElem hib, List.getElem?_eq_getElem hiv,
      List.getElem?_eq_getElem hio, ?_⟩
    have hz1 : (List.zipWith Bucketer.get_bucketed mb.bucketers values)[i]? =
        some (Bucketer.get_bucketed mb.bucketers[i] values[i]) := by
      rw [List.getElem?_eq_getElem (by simp only [List.length_zipWith]; omega)]
      simp
    rw [hzip] at hz1
    have hz2 : (out.map some)[i]? = some (some out[i]) := by
      rw [List.getElem?_eq_getElem (by simp only [List.length_map]; omega)]
      simp
    rw [hz2] at hz1
    exact (Option.some.inj hz1).symm
  · constructor
    · norm_num [MultiBucketer.get_bucketed, MultiBucketer.collectOpt,
        Bucketer.get_bucketed, Bucketer.inBucket, Bucketer.step_size,
        List.range_succ]
    · norm_num [Bucketer.get_bucketed, Bucketer.inBucket, Bucketer.step_size,
        List.range_succ]

/-- Witness for C9 at the two-dimensional MultiBucketer with bounds
(0, 10) and (-5, 5), applied to the vector [2, 0]. -/
theorem c9_pointwise_witness :
    ([(2 : ℚ), 0].length =
        (MultiBucketer.mk [Bucketer.mk 0 10 5, Bucketer.mk (-5) 5 5] 5).n) ∧
      ((∀ out, (MultiBucketer.mk [Bucketer.mk 0 10 5, Bucketer.mk (-5) 5 5] 5).get_bucketed
            [2, 0] = some out →
          out.length = (MultiBucketer.mk [Bucketer.mk 0 10 5, Bucketer.mk (-5) 5 5] 5).n ∧
          ∀ i, i < (MultiBucketer.mk [Bucketer.mk 0 10 5, Bucketer.mk (-5) 5 5] 5).n →
            ∃ bi vi ri,
              (MultiBucketer.mk [Bucketer.mk 0 10 5, Bucketer.mk (-5) 5 5] 5).bucketers[i]? =
                some bi ∧
              [(2 : ℚ), 0][i]? = some vi ∧ out[i]? = some ri ∧
              bi.get_bucketed vi = some ri) ∧
        ((MultiBucketer.mk [Bucketer.mk 0 10 5, Bucketer.mk (-5) 5 5] 5).get_bucketed
            [2, 0] = some [1, 2] ∧
          (Bucketer.mk (-5) 5 5).get_bucketed 0 = some 2)) :=
  ⟨by decide,
    c9_pointwise (MultiBucketer.mk [Bucketer.mk 0 10 5, Bucketer.mk (-5) 5 5] 5)
      [2, 0] (by decide)⟩

/-- C4: for every Bucketer with ordered bounds and a positive bucket count,
and every value in the half-open input interval, get_bucketed returns an
index in the interval from 0 to n_buckets, and the index is monotonically
non-decreasing in the value. -/
theorem c4_range_and_monotone (b : Bucketer) (v : ℚ)
    (hn : 0 < b.n_buckets) (hlt : b.lower_bound < b.upper_bound)
    (hlo : b.lower_bound ≤ v) (hhi : v < b.upper_bound) :
    ∃ r : ℤ, b.get_bucketed v = some r ∧ 0 ≤ r ∧ r < (b.n_buckets : ℤ) ∧
      ∀ v2 : ℚ, v ≤ v2 → v2 < b.upper_bound →
        ∀ r2 : ℤ, b.get_bucketed v2 = some r2 → r ≤ r2 := by
  have hs := Bucketer.step_size_pos b hn hlt
  have hcov := Bucketer.upper_le_cover b hn
  obtain ⟨he, h0, hn'⟩ :=
    Bucketer.get_bucketed_eq_floor b v hn hs hlo (lt_of_lt_of_le hhi hcov)
  refine ⟨_, he, h0, hn', ?_⟩
  intro v2 h12 h2ub r2 he2
  obtain ⟨he2', _, _⟩ :=
    Bucketer.get_bucketed_eq_floor b v2 hn hs (le_trans hlo h12)
      (lt_of_lt_of_le h2ub hcov)
  rw [he2'] at he2
  injection he2 with he2
  rw [← he2]
  apply Int.floor_le_floor
  rw [div_le_div_iff_of_pos_right hs]
  linarith

/-- Witness for C4 at the Bucketer with bounds 0 and 10 and 5 buckets,
applied to the value 3. -/
theorem c4_range_and_monotone_witness :
    0 < (Bucketer.mk 0 10 5).n_buckets ∧
      (Bucketer.mk 0 10 5).lower_bound < (Bucketer.mk 0 10 5).upper_bound ∧
      (Bucketer.mk 0 10 5).lower_bound ≤ 3 ∧
      (3 : ℚ) < (Bucketer.mk 0 10 5).upper_bound ∧
      (∃ r : ℤ, (Bucketer.mk 0 10 5).get_bucketed 3 = some r ∧ 0 ≤ r ∧
        r < ((Bucketer.mk 0 10 5).n_buckets : ℤ) ∧
        ∀ v2 : ℚ, 3 ≤ v2 → v2 < (Bucketer.mk 0 10 5).upper_bound →
          ∀ r2 : ℤ, (Bucketer.mk 0 10 5).get_bucketed v2 = some r2 → r ≤ r2) :=
  ⟨by decide, by norm_num, by norm_num, by norm_num,
    c4_range_and_monotone (Bucketer.mk 0 10 5) 3 (by decide) (by norm_num)
      (by norm_num) (by norm_num)⟩

namespace Cell

/-- Assigning a present key makes later lookups of it yield the new value. -/
theorem lookup_updateEntry_self (e : List (ℚ × Cell)) (k : ℚ) (c c' : Cell)
    (h : lookup e k = some c) : lookup (updateEntry e k c') k = some c' := by
  induction e with
  | nil => simp [lookup] at h
  | cons p rest ih =>
      obtain ⟨k2, c2⟩ := p
      by_cases hk : k2 = k
      · subst hk
        simp [lookup, updateEntry]
      · simp only [lookup, updateEntry, if_neg hk] at h ⊢
        exact ih h

/-- Assigning one key leaves lookups of any other key unchanged. -/
theorem lookup_updateEntry_ne (e : List (ℚ × Cell)) (k k2 : ℚ) (c' : Cell)
    (h : k ≠ k2) : lookup (updateEntry e k c') k2 = lookup e k2 := by
  induction e with
  | nil => simp [updateEntry]
  | cons p rest ih =>
      obtain ⟨ke, ce⟩ := p
      by_cases hk : ke = k
      · subst hk
        simp [updateEntry, lookup, h]
      · simp only [updateEntry, if_neg hk, lookup]
        by_cases hk2 : ke = k2 <;> simp [hk2, ih]

/-- Assigning a key the exact value already stored there leaves the dict
unchanged. -/
theorem updateEntry_lookup_eq (e : List (ℚ × Cell)) (k : ℚ) (c : Cell)
    (h : lookup e k = some c) : updateEntry e k c = e := by
  induction e with
  | nil => simp [updateEntry]
  | cons p rest ih =>
      obtain ⟨ke, ce⟩ := p
      by_cases hk : ke = k
      · subst hk
        have hce : ce = c := by simpa [lookup] using h
        subst hce
        simp [updateEntry]
      · simp only [lookup, if_neg hk] at h
        simp [updateEntry, hk, ih h]

/-- Two successive assignments to the same key keep only the second. -/
theorem updateEntry_updateEntry (e : List (ℚ × Cell)) (k : ℚ) (c c2 : Cell) :
    updateEntry (updateEntry e k c) k c2 = updateEntry e k c2 := by
  induction e with
  | nil => simp [updateEntry]
  | cons p rest ih =>
      obtain ⟨ke, ce⟩ := p
      by_cases hk : ke = k <;> simp [updateEntry, hk, ih]

/-- Appending an entry for an absent key makes it found at the end. -/
theorem lookup_append_single (e : List (ℚ × Cell)) (k : ℚ) (c : Cell)
    (h : lookup e k = none) : lookup (e ++ [(k, c)]) k = some c := by
  induction e with
  | nil => simp [lookup]
  | cons p rest ih =>
      obtain ⟨ke, ce⟩ := p
      by_cases hk : ke = k
      · simp [lookup, hk] at h
      · simp only [List.cons_append, lookup, if_neg hk] at h ⊢
        exact ih h

/-- Reading back the key path that getCell walked yields the cell getCell
returned: the returned reference is the object stored at that path in the
updated table. -/
theorem getCell_cellAt (initv : ℚ) (nA : ℕ) (ks : List ℚ) (c res c' : Cell)
    (h : getCell initv nA ks c = some (res, c')) :
    cellAt ks c' = some res := by
  induction ks generalizing c res c' with
  | nil =>
      simp only [getCell, Option.some.injEq, Prod.mk.injEq] at h
      obtain ⟨h1, h2⟩ := h
      subst h1
      subst h2
      simp [cellAt]
  | cons k rest ih =>
      cases c with
      | leaf v => simp [getCell] at h
      | node entries =>
          simp only [getCell] at h
          split at h
          · next c1 hl =>
              split at h
              · next res0 c1' hg =>
                  simp only [Option.some.injEq, Prod.mk.injEq] at h
                  obtain ⟨h1, h2⟩ := h
                  subst h1
                  subst h2
                  simp only [cellAt, lookup_updateEntry_self entries k c1 c1' hl]
                  exact ih _ _ _ hg
              · exact absurd h (by simp)
          · next hl =>
              split at h
              · next res0 c1' hg =>
                  simp only [Option.some.injEq, Prod.mk.injEq] at h
                  obtain ⟨h1, h2⟩ := h
                  subst h1
                  subst h2
                  simp only [cellAt, lookup_append_single entries k c1' hl]
                  exact ih _ _ _ hg
              · exact absurd h (by simp)

/-- A get whose whole key path is already present performs no insertion:
it returns the stored cell and leaves the table as it was. -/
theorem cellAt_getCell (initv : ℚ) (nA : ℕ) (ks : List ℚ) (c res : Cell)
    (h : cellAt ks c = some res) :
    getCell initv nA ks c = some (res, c) := by
  induction ks generalizing c with
  | nil =>
      simp only [cellAt, Option.some.injEq] at h
      subst h
      simp [getCell]
  | cons k rest ih =>
      cases c with
      | leaf v => simp [cellAt] at h
      | node entries =>
          simp only [cellAt] at h
          split at h
          · next c1 hl =>
              have hg := ih c1 h
              simp only [getCell, hl, hg, updateEntry_lookup_eq entries k c1 hl]
          · exact absurd h (by simp)

/-- Writing element a of the leaf stored at a key path changes exactly that
stored leaf to its updated vector. -/
theorem cellAt_write_self (a : ℕ) (x : ℚ) (ks : List ℚ) (c : Cell)
    (v : List ℚ) (h : cellAt ks c = some (leaf v)) :
    cellAt ks (write a x ks c) = some (leaf (v.set a x)) := by
  induction ks generalizing c with
  | nil =>
      simp only [cellAt, Option.some.injEq] at h
      subst h
      simp [write, cellAt]
  | cons k rest ih =>
      cases c with
      | leaf w => simp [cellAt] at h
      | node entries =>
          simp only [cellAt] at h
          split at h
          · next c1 hl =>
              simp only [write, hl]
              simp only [cellAt, lookup_updateEntry_self entries k c1 _ hl]
              exact ih c1 h
          · exact absurd h (by simp)

/-- Writing through a reference at one key path leaves the cell stored at
any other key path of the same length untouched. -/
theorem cellAt_write_ne (a : ℕ) (x : ℚ) (ks ks2 : List ℚ) (c : Cell)
    (hlen : ks.length = ks2.length) (hne : ks ≠ ks2) :
    cellAt ks2 (write a x ks c) = cellAt ks2 c := by
  induction ks generalizing ks2 c with
  | nil =>
      cases ks2 with
      | nil => exact absurd rfl hne
      | cons k2 r2 => simp at hlen
  | cons k rest ih =>
      cases ks2 with
      | nil => simp at hlen
      | cons k2 rest2 =>
          cases c with
          | leaf w => rfl
          | node entries =>
              simp only [write]
              split
              · next c1 hl =>
                  by_cases hk : k = k2
                  · subst hk
                    have hrest : rest ≠ rest2 := fun hr => hne (by rw [hr])
                    have hlen2 : rest.length = rest2.length := by
                      simpa using hlen
                    simp only [cellAt,
                      lookup_updateEntry_self entries k c1 _ hl, hl]
                    exact ih rest2 c1 hlen2 hrest
                  · simp only [cellAt, lookup_updateEntry_ne entries k k2 _ hk]
              · rfl

/-- Lookup of a present key in an invariant-respecting dict yields an
invariant-respecting cell. -/
theorem entriesOk_lookup (nA : ℕ) (e : List (ℚ × Cell)) (k : ℚ) (c : Cell)
    (he : entriesOk nA e) (h : lookup e k = some c) : leavesOk nA c := by
  induction e with
  | nil => simp [lookup] at h
  | cons p rest ih =>
      obtain ⟨ke, ce⟩ := p
      simp only [entriesOk] at he
      by_cases hk : ke = k
      · simp only [lookup, if_pos hk, Option.some.injEq] at h
        subst h
        exact he.1
      · simp only [lookup, if_neg hk] at h
        exact ih he.2 h

/-- Assignment of an invariant-respecting cell preserves the invariant of
the dict. -/
theorem entriesOk_updateEntry (nA : ℕ) (e : List (ℚ × Cell)) (k : ℚ)
    (c : Cell) (he : entriesOk nA e) (hc : leavesOk nA c) :
    entriesOk nA (updateEntry e k c) := by
  induction e with
  | nil => simpa [updateEntry] using he
  | cons p rest ih =>
      obtain ⟨ke, ce⟩ := p
      simp only [entriesOk] at he
      by_cases hk : ke = k
      · simp only [updateEntry, if_pos hk, entriesOk]
        exact ⟨hc, he.2⟩
      · simp only [updateEntry, if_neg hk, entriesOk]
        exact ⟨he.1, ih he.2⟩

/-- Appending an entry holding an invariant-respecting cell preserves the
invariant of the dict. -/
theorem entriesOk_append_single (nA : ℕ) (e : List (ℚ × Cell)) (k : ℚ)
    (c : Cell) (he : entriesOk nA e) (hc : leavesOk nA c) :
    entriesOk nA (e ++ [(k, c)]) := by
  induction e with
  | nil => simpa [entriesOk] using hc
  | cons p rest ih =>
      obtain ⟨ke, ce⟩ := p
      simp only [entriesOk] at he
      simp only [List.cons_append, entriesOk]
      exact ⟨he.1, ih he.2⟩

/-- A successful getCell preserves the leaf-length invariant: every leaf it
inserts is a fresh full(n_actions, init_value) vector. -/
theorem getCell_leavesOk (initv : ℚ) (nA : ℕ) (ks : List ℚ) (c res c' : Cell)
    (hc : leavesOk nA c) (h : getCell initv nA ks c = some (res, c')) :
    leavesOk nA c' := by
  induction ks generalizing c res c' with
  | nil =>
      simp only [getCell, Option.some.injEq, Prod.mk.injEq] at h
      obtain ⟨h1, h2⟩ := h
      subst h2
      exact hc
  | cons k rest ih =>
      cases c with
      | leaf v => simp [getCell] at h
      | node entries =>
          simp only [leavesOk] at hc
          simp only [getCell] at h
          split at h
          · next c1 hl =>
              split at h
              · next res0 c1' hg =>
                  simp only [Option.some.injEq, Prod.mk.injEq] at h
                  obtain ⟨h1, h2⟩ := h
                  subst h2
                  have hc1 : leavesOk nA c1 := entriesOk_lookup nA entries k c1 hc hl
                  have hc1' := ih c1 res0 c1' hc1 hg
                  simp only [leavesOk]
                  exact entriesOk_updateEntry nA entries k c1' hc hc1'
              · exact absurd h (by simp)
          · next hl =>
              have hfresh : leavesOk nA
                  (if rest = [] then leaf (List.replicate nA initv)
                   else node []) := by
                split
                · simp [leavesOk]
                · simp [leavesOk, entriesOk]
              split at h
              · next res0 c1' hg =>
                  simp only [Option.some.injEq, Prod.mk.injEq] at h
                  obtain ⟨h1, h2⟩ := h
                  subst h2
                  have hc1' := ih _ res0 c1' hfresh hg
                  simp only [leavesOk]
                  exact entriesOk_append_single nA entries k c1' hc hc1'
              · exact absurd h (by simp)

/-- One get on an empty dict builds exactly the single path of the key
sequence, ending in the fresh full(n_actions, init_value) leaf. -/
theorem getCell_empty_singlePath (initv : ℚ) (nA : ℕ) (ks : List ℚ)
    (hne : ks ≠ []) :
    getCell initv nA ks (node []) =
      some (leaf (List.replicate nA initv), node (singlePath initv nA ks)) := by
  induction ks with
  | nil => exact absurd rfl hne
  | cons k rest ih =>
      cases rest with
      | nil => simp [getCell, lookup, singlePath]
      | cons k2 r2 =>
          have hr : (k2 :: r2 : List ℚ) ≠ [] := by simp
          have hstep : getCell initv nA (k :: k2 :: r2) (node []) =
              (match getCell initv nA (k2 :: r2) (node []) with
                | some (res, c') => some (res, node ([] ++ [(k, c')]))
                | none => none) := rfl
          rw [hstep, ih hr]
          simp [singlePath]

/-- The single path is indeed a chain: one entry per nesting level, one
level per key, ending in the freshly initialised leaf. -/
theorem singlePath_singleChain (initv : ℚ) (nA : ℕ) (ks : List ℚ)
    (hne : ks ≠ []) :
    singleChain initv nA ks (node (singlePath initv nA ks)) := by
  induction ks with
  | nil => exact absurd rfl hne
  | cons k rest ih =>
      cases rest with
      | nil => exact ⟨leaf (List.replicate nA initv), rfl, rfl⟩
      | cons k2 r2 =>
          have hr : (k2 :: r2 : List ℚ) ≠ [] := by simp
          exact ⟨node (singlePath initv nA (k2 :: r2)), rfl, ih hr⟩

/-- Write on a dict node acts entirely inside the entry list. -/
theorem write_node (a : ℕ) (x : ℚ) (ks : List ℚ) (entries : List (ℚ × Cell)) :
    write a x ks (node entries) = node (writeEntries a x ks entries) := by
  cases ks with
  | nil => rfl
  | cons k rest =>
      simp only [write, writeEntries]
      split <;> rfl

end Cell

namespace ObservationDict

/-- Destructor for a successful get: the bucketed key list exists, the walk
succeeded, and the returned dictionary is the input with its table replaced
by the walked table. -/
theorem get_some_elim (d : ObservationDict) (obs : List ℚ) (res : Cell)
    (d2 : ObservationDict) (h : d.get obs = some (res, d2)) :
    ∃ ks t, d.keysOf obs = some ks ∧
      Cell.getCell d.init_value d.n_actions ks (Cell.node d.table) =
        some (res, Cell.node t) ∧
      d2 = { d with table := t } := by
  unfold ObservationDict.get at h
  split at h
  · simp at h
  · next ks hk =>
      split at h
      · next res0 t hg =>
          simp only [Option.some.injEq, Prod.mk.injEq] at h
          obtain ⟨h1, h2⟩ := h
          subst h1
          exact ⟨ks, t, hk, hg, h2.symm⟩
      · simp at h
      · simp at h

/-- Constructor for a successful get from its key list and table walk. -/
theorem get_some_intro (d : ObservationDict) (obs : List ℚ) (ks : List ℚ)
    (res : Cell) (t : List (ℚ × Cell)) (hk : d.keysOf obs = some ks)
    (hg : Cell.getCell d.init_value d.n_actions ks (Cell.node d.table) =
      some (res, Cell.node t)) :
    d.get obs = some (res, { d with table := t }) := by
  simp only [ObservationDict.get, hk, hg]

end ObservationDict

/-- C5: calling get twice with the same observation returns the same leaf
cell both times and leaves the table exactly as after the first call (no
new entries anywhere); the returned cell is the object stored at the
bucketed key path of that unchanged table, so both calls hand back the
same stored object. -/
theorem c5_get_idempotent (d : ObservationDict) (obs : List ℚ) (res : Cell)
    (d1 : ObservationDict) (h : d.get obs = some (res, d1)) :
    d1.get obs = some (res, d1) ∧
      ∃ ks, d1.keysOf obs = some ks ∧
        Cell.cellAt ks (Cell.node d1.table) = some res := by
  obtain ⟨ks, t, hk, hg, hd⟩ := ObservationDict.get_some_elim d obs res d1 h
  subst hd
  have hk1 : ({ d with table := t } : ObservationDict).keysOf obs = some ks := hk
  have hread : Cell.cellAt ks (Cell.node t) = some res :=
    Cell.getCell_cellAt d.init_value d.n_actions ks _ res _ hg
  have hpure :=
    Cell.cellAt_getCell d.init_value d.n_actions ks (Cell.node t) res hread
  refine ⟨?_, ks, hk1, hread⟩
  exact ObservationDict.get_some_intro { d with table := t } obs ks res t hk1 hpure

/-- Witness for C5: a table with two actions and no bucketer, queried twice
with the observation [1]. -/
theorem c5_get_idempotent_witness :
    (ObservationDict.mk [] 0 2 none).get [1] =
        some (Cell.leaf [0, 0],
          ObservationDict.mk [(1, Cell.leaf [0, 0])] 0 2 none) ∧
      ((ObservationDict.mk [(1, Cell.leaf [0, 0])] 0 2 none).get [1] =
          some (Cell.leaf [0, 0],
            ObservationDict.mk [(1, Cell.leaf [0, 0])] 0 2 none) ∧
        ∃ ks, (ObservationDict.mk [(1, Cell.leaf [0, 0])] 0 2 none).keysOf [1] =
            some ks ∧
          Cell.cellAt ks (Cell.node [(1, Cell.leaf [0, 0])]) =
            some (Cell.leaf [0, 0])) :=
  ⟨rfl, c5_get_idempotent (ObservationDict.mk [] 0 2 none) [1]
    (Cell.leaf [0, 0]) (ObservationDict.mk [(1, Cell.leaf [0, 0])] 0 2 none) rfl⟩

/-- C6: a fresh SparseActionTable has an empty table; one get with a
nonempty key sequence builds exactly one nested single-entry path, one
level per key, ending in a vector of n_actions copies of init_value; and
every successful get preserves the invariant that all stored leaves are
vectors of length n_actions. -/
theorem c6_lazy_creation (initv : ℚ) (nA : ℕ) (bk : Option MultiBucketer)
    (obs ks : List ℚ)
    (hk : (ObservationDict.mk [] initv nA bk).keysOf obs = some ks)
    (hne : ks ≠ []) :
    (ObservationDict.mk [] initv nA bk).table = [] ∧
      (ObservationDict.mk [] initv nA bk).get obs =
        some (Cell.leaf (List.replicate nA initv),
          ObservationDict.mk (Cell.singlePath initv nA ks) initv nA bk) ∧
      Cell.singleChain initv nA ks (Cell.node (Cell.singlePath initv nA ks)) ∧
      (∀ d : ObservationDict, ∀ obs2 res d2,
        Cell.leavesOk d.n_actions (Cell.node d.table) →
        d.get obs2 = some (res, d2) →
        Cell.leavesOk d.n_actions (Cell.node d2.table)) := by
  refine ⟨rfl, ?_, Cell.singlePath_singleChain initv nA ks hne, ?_⟩
  · have hg := Cell.getCell_empty_singlePath initv nA ks hne
    exact ObservationDict.get_some_intro (ObservationDict.mk [] initv nA bk)
      obs ks _ _ hk hg
  · intro d obs2 res d2 hinv h
    obtain ⟨ks2, t2, hk2, hg2, hd2⟩ :=
      ObservationDict.get_some_elim d obs2 res d2 h
    subst hd2
    exact Cell.getCell_leavesOk d.init_value d.n_actions ks2 _ res _ hinv hg2

/-- Witness for C6: a fresh table with two actions and no bucketer, first
queried with the two-coordinate observation [1, 2]. -/
theorem c6_lazy_creation_witness :
    (ObservationDict.mk [] 0 2 none).keysOf [1, 2] = some [1, 2] ∧
      ([(1 : ℚ), 2] ≠ []) ∧
      ((ObservationDict.mk [] 0 2 none).table = [] ∧
        (ObservationDict.mk [] 0 2 none).get [1, 2] =
          some (Cell.leaf (List.replicate 2 0),
            ObservationDict.mk (Cell.singlePath 0 2 [1, 2]) 0 2 none) ∧
        Cell.singleChain 0 2 [1, 2] (Cell.node (Cell.singlePath 0 2 [1, 2])) ∧
        (∀ d : ObservationDict, ∀ obs2 res d2,
          Cell.leavesOk d.n_actions (Cell.node d.table) →
          d.get obs2 = some (res, d2) →
          Cell.leavesOk d.n_actions (Cell.node d2.table))) :=
  ⟨rfl, by decide, c6_lazy_creation 0 2 none [1, 2] [1, 2] rfl (by decide)⟩

/-- C7: after obtaining the leaf vector for an observation and writing
value x at action index a through the returned reference, a subsequent get
of the same observation returns the updated vector, whose element at index
a is x, with no separate set operation. -/
theorem c7_mutation_persists (d : ObservationDict) (obs : List ℚ)
    (v : List ℚ) (d1 : ObservationDict) (ks : List ℚ) (a : ℕ) (x : ℚ)
    (h : d.get obs = some (Cell.leaf v, d1))
    (hks : d.keysOf obs = some ks)
    (ha : a < v.length) :
    (d1.writeAt ks a x).get obs =
        some (Cell.leaf (v.set a x), d1.writeAt ks a x) ∧
      (v.set a x)[a]? = some x := by
  obtain ⟨ks', t, hk, hg, hd⟩ :=
    ObservationDict.get_some_elim d obs (Cell.leaf v) d1 h
  subst hd
  rw [hks] at hk
  have hkk : ks = ks' := Option.some.inj hk
  subst hkk
  have hread : Cell.cellAt ks (Cell.node t) = some (Cell.leaf v) :=
    Cell.getCell_cellAt d.init_value d.n_actions ks _ _ _ hg
  have hwrite := Cell.cellAt_write_self a x ks (Cell.node t) v hread
  rw [Cell.write_node] at hwrite
  have hpure := Cell.cellAt_getCell d.init_value d.n_actions ks
    (Cell.node (Cell.writeEntries a x ks t)) (Cell.leaf (v.set a x)) hwrite
  refine ⟨?_, List.getElem?_set_self ha⟩
  exact ObservationDict.get_some_intro
    (({ d with table := t } : ObservationDict).writeAt ks a x) obs ks
    (Cell.leaf (v.set a x)) (Cell.writeEntries a x ks t) hks hpure

/-- Witness for C7: the table with two actions and no bucketer, after one
get of [1], written at action 0 with value 5. -/
theorem c7_mutation_persists_witness :
    (ObservationDict.mk [] 0 2 none).get [1] =
        some (Cell.leaf [0, 0],
          ObservationDict.mk [(1, Cell.leaf [0, 0])] 0 2 none) ∧
      (ObservationDict.mk [] 0 2 none).keysOf [1] = some [1] ∧
      0 < [(0 : ℚ), 0].length ∧
      (((ObservationDict.mk [(1, Cell.leaf [0, 0])] 0 2 none).writeAt [1] 0 5).get
          [1] =
        some (Cell.leaf ([(0 : ℚ), 0].set 0 5),
          (ObservationDict.mk [(1, Cell.leaf [0, 0])] 0 2 none).writeAt [1] 0 5) ∧
        ([(0 : ℚ), 0].set 0 5)[0]? = some 5) :=
  ⟨rfl, rfl, by decide,
    c7_mutation_persists (ObservationDict.mk [] 0 2 none) [1] [0, 0]
      (ObservationDict.mk [(1, Cell.leaf [0, 0])] 0 2 none) [1] 0 5 rfl rfl
      (by decide)⟩

/-- C8: two observations whose bucketed key sequences differ reach two
distinct storage paths: writing an element through the reference returned
for the first observation leaves the leaf stored and returned for the
second observation unchanged. -/
theorem c8_distinct_independent (d : ObservationDict) (obs1 obs2 : List ℚ)
    (v1 v2 : List ℚ) (d1 d2 : ObservationDict) (ks1 ks2 : List ℚ)
    (a : ℕ) (x : ℚ)
    (h1 : d.get obs1 = some (Cell.leaf v1, d1))
    (h2 : d1.get obs2 = some (Cell.leaf v2, d2))
    (hk1 : d.keysOf obs1 = some ks1)
    (hk2 : d.keysOf obs2 = some ks2)
    (hne : ks1 ≠ ks2) (hlen : ks1.length = ks2.length) :
    Cell.cellAt ks2 (Cell.node (d2.writeAt ks1 a x).table) =
        some (Cell.leaf v2) ∧
      (d2.writeAt ks1 a x).get obs2 =
        some (Cell.leaf v2, d2.writeAt ks1 a x) := by
  obtain ⟨ks1', t1, hk1', hg1, hd1⟩ :=
    ObservationDict.get_some_elim d obs1 (Cell.leaf v1) d1 h1
  subst hd1
  obtain ⟨ks2', t2, hk2', hg2, hd2⟩ :=
    ObservationDict.get_some_elim _ obs2 (Cell.leaf v2) d2 h2
  subst hd2
  have hk2'' : d.keysOf obs2 = some ks2' := hk2'
  rw [hk2] at hk2''
  have e2 : ks2 = ks2' := Option.some.inj hk2''
  subst e2
  have hread2 : Cell.cellAt ks2 (Cell.node t2) = some (Cell.leaf v2) :=
    Cell.getCell_cellAt _ _ ks2 _ _ _ hg2
  have hwne : Cell.cellAt ks2 (Cell.write a x ks1 (Cell.node t2)) =
      Cell.cellAt ks2 (Cell.node t2) :=
    Cell.cellAt_write_ne a x ks1 ks2 (Cell.node t2) hlen hne
  rw [Cell.write_node] at hwne
  have hcell : Cell.cellAt ks2 (Cell.node (Cell.writeEntries a x ks1 t2)) =
      some (Cell.leaf v2) := by rw [hwne]; exact hread2
  refine ⟨hcell, ?_⟩
  have hpure := Cell.cellAt_getCell d.init_value d.n_actions ks2
    (Cell.node (Cell.writeEntries a x ks1 t2)) (Cell.leaf v2) hcell
  exact ObservationDict.get_some_intro _ obs2 ks2 (Cell.leaf v2)
    (Cell.writeEntries a x ks1 t2) hk2' hpure

/-- Witness for C8: the two-action table with no bucketer, observations
[1] and [2], writing value 5 at action 0 of the first leaf. -/
theorem c8_distinct_independent_witness :
    (ObservationDict.mk [] 0 2 none).get [1] =
        some (Cell.leaf [0, 0],
          ObservationDict.mk [(1, Cell.leaf [0, 0])] 0 2 none) ∧
      (ObservationDict.mk [(1, Cell.leaf [0, 0])] 0 2 none).get [2] =
        some (Cell.leaf [0, 0],
          ObservationDict.mk [(1, Cell.leaf [0, 0]), (2, Cell.leaf [0, 0])]
            0 2 none) ∧
      (ObservationDict.mk [] 0 2 none).keysOf [1] = some [1] ∧
      (ObservationDict.mk [] 0 2 none).keysOf [2] = some [2] ∧
      ([(1 : ℚ)] ≠ [(2 : ℚ)]) ∧
      ([(1 : ℚ)].length = [(2 : ℚ)].length) ∧
      (Cell.cellAt [2]
          (Cell.node ((ObservationDict.mk [(1, Cell.leaf [0, 0]),
              (2, Cell.leaf [0, 0])] 0 2 none).writeAt [1] 0 5).table) =
          some (Cell.leaf [0, 0]) ∧
        ((ObservationDict.mk [(1, Cell.leaf [0, 0]), (2, Cell.leaf [0, 0])]
            0 2 none).writeAt [1] 0 5).get [2] =
          some (Cell.leaf [0, 0],
            (ObservationDict.mk [(1, Cell.leaf [0, 0]), (2, Cell.leaf [0, 0])]
              0 2 none).writeAt [1] 0 5)) :=
  ⟨rfl, rfl, rfl, rfl, by decide, rfl,
    c8_distinct_independent (ObservationDict.mk [] 0 2 none) [1] [2]
      [0, 0] [0, 0] (ObservationDict.mk [(1, Cell.leaf [0, 0])] 0 2 none)
      (ObservationDict.mk [(1, Cell.leaf [0, 0]), (2, Cell.leaf [0, 0])] 0 2 none)
      [1] [2] 0 5 rfl rfl rfl rfl (by decide) rfl⟩

/-- C10: with no bucketer configured, get with the empty observation list
executes no loop iteration and does not raise: it returns the root mapping
itself, which is a dict and not a leaf vector, and leaves the dictionary
unchanged. -/
theorem c10_empty_key (d : ObservationDict) (hb : d.bucketer = none) :
    d.get [] = some (Cell.node d.table, d) ∧
      ∀ v : List ℚ, Cell.node d.table ≠ Cell.leaf v := by
  constructor
  · have hk : d.keysOf [] = some [] := by
      unfold ObservationDict.keysOf
      rw [hb]
    have hg : Cell.getCell d.init_value d.n_actions [] (Cell.node d.table) =
        some (Cell.node d.table, Cell.node d.table) := rfl
    exact ObservationDict.get_some_intro d [] [] (Cell.node d.table) d.table hk hg
  · intro v hv
    exact Cell.noConfusion hv

/-- Witness for C10: a table with one stored entry and no bucketer,
queried with the empty observation. -/
theorem c10_empty_key_witness :
    (ObservationDict.mk [(1, Cell.leaf [0, 0])] 0 2 none).bucketer = none ∧
      ((ObservationDict.mk [(1, Cell.leaf [0, 0])] 0 2 none).get [] =
        some (Cell.node [(1, Cell.leaf [0, 0])],
          ObservationDict.mk [(1, Cell.leaf [0, 0])] 0 2 none) ∧
        ∀ v : List ℚ, Cell.node [(1, Cell.leaf [0, 0])] ≠ Cell.leaf v) :=
  ⟨rfl, c10_empty_key (ObservationDict.mk [(1, Cell.leaf [0, 0])] 0 2 none) rfl⟩

end CartPole
